import Mathlib

/-!
Verification of the postfix-regex NFA engine in `src/regex.py`.

The Python program builds a Thompson-style NFA from a postfix token list
(`postfix_to_nfa`) and simulates it (`State.match`, `State.advance`,
`State.auto_expand`).  Python `State` objects form a mutable heap graph;
we embed that heap as an arena (a list of nodes indexed by `Nat`), an
`Output` slot as an `Option Nat` entry of a node's `outputs` list, and
mutation (`Output.set`) as a functional arena update.  The recursive
matcher can diverge on epsilon cycles, so it is embedded with explicit
fuel: a `none` result means the recursion depth was exhausted at every
finite depth bound, i.e. the Python code would recurse without end.
-/

set_option maxRecDepth 4000

namespace KtRegex

/-- One `State` object of `regex.py` (lines 19-33): an optional `trigger`
character and a fixed tuple of output slots; a slot holds `none` when the
Python `Output` is dangling, `some t` when it points at the state with
arena index `t`. -/
structure State where
  trigger : Option Char
  outputs : List (Option Nat)
deriving DecidableEq, Repr

/-- The heap of `State` objects, addressed by creation order. -/
abbrev Arena := List State

/-- Reading a node of the heap.  Constructed automata only ever hold
in-range indices (proved below); the default is never reached there. -/
def getNode (a : Arena) (i : Nat) : State := (a[i]?).getD ⟨none, []⟩

/-- The target currently stored in output slot `j` of state `i`:
`none` when the slot does not exist, `some none` when it is dangling,
`some (some t)` when it points at state `t`. -/
def slot? (a : Arena) (i j : Nat) : Option (Option Nat) :=
  (a[i]?).bind (fun s => s.outputs[j]?)

/-- `Output.set` (regex.py lines 217-221): rebind one output slot.  The
slot is identified by `(state index, slot index)`. -/
def setSlot (a : Arena) (p : Nat × Nat) (t : Option Nat) : Arena :=
  match a[p.1]? with
  | some s => a.set p.1 ⟨s.trigger, s.outputs.set p.2 t⟩
  | none => a

/-- The `for op in outputs: op.set(target)` loops of `postfix_to_nfa`. -/
def wireAll (a : Arena) (ops : List (Nat × Nat)) (t : Nat) : Arena :=
  ops.foldl (fun a op => setSlot a op (some t)) a

/-- A `Fragment` (regex.py lines 239-251): an entry state and the set of
output slots the constructor still tracks for it. -/
structure Fragment where
  enter : Nat
  outputs : List (Nat × Nat)
deriving DecidableEq, Repr

/-- The construction failures of `postfix_to_nfa`.  `stackUnderflow` is
the `IndexError` Python raises when `stack.pop()` runs on an empty list
(an operator arrived with too few operands); the other two are the
`Exception`s raised explicitly at regex.py lines 355 and 358. -/
inductive Err where
  | stackUnderflow
  | multipleFragments
  | emptyExpression
deriving DecidableEq, Repr

/-- One iteration of the token loop of `postfix_to_nfa` (regex.py lines
256-343).  The stack grows at its head (`stack.append`/`stack.pop` act on
the Python list's tail; we keep the top in front).  Each branch mirrors
one token case: note that `Fragment(state)` in Python initialises the
tracked outputs to all slots of `state`, which the `'|'`, `'?'`, `'*'`
and `'+'` branches then overwrite as written here. -/
def step (a : Arena) (stack : List Fragment) (c : Char) :
    Except Err (Arena × List Fragment) :=
  if c = '.' then
    match stack with
    | f2 :: f1 :: rest =>
      .ok (wireAll a f1.outputs f2.enter, ⟨f1.enter, f2.outputs⟩ :: rest)
    | _ => .error .stackUnderflow
  else if c = '|' then
    match stack with
    | f2 :: f1 :: rest =>
      .ok (a ++ [⟨none, [some f1.enter, some f2.enter]⟩],
           ⟨a.length, f1.outputs ++ f2.outputs⟩ :: rest)
    | _ => .error .stackUnderflow
  else if c = '?' then
    match stack with
    | f :: rest =>
      .ok (a ++ [⟨none, [some f.enter, none]⟩],
           ⟨a.length, f.outputs ++ [(a.length, 1)]⟩ :: rest)
    | _ => .error .stackUnderflow
  else if c = '*' then
    match stack with
    | f :: rest =>
      .ok (wireAll (a ++ [⟨none, [some f.enter, none]⟩]) f.outputs a.length,
           ⟨a.length, [(a.length, 1)]⟩ :: rest)
    | _ => .error .stackUnderflow
  else if c = '+' then
    match stack with
    | f :: rest =>
      .ok (wireAll (a ++ [⟨none, [some f.enter, none]⟩]) f.outputs a.length,
           ⟨f.enter, [(a.length, 1)]⟩ :: rest)
    | _ => .error .stackUnderflow
  else
    .ok (a ++ [⟨some c, [none]⟩], ⟨a.length, [(a.length, 0)]⟩ :: stack)

/-- The whole token loop, starting from the empty heap and empty stack. -/
def runConstruct (toks : List Char) : Except Err (Arena × List Fragment) :=
  toks.foldlM (fun p c => step p.1 p.2 c) (([] : Arena), ([] : List Fragment))

/-- `postfix_to_nfa` (regex.py lines 254-358): run the token loop, then
require exactly one fragment; create the terminal match state
(`State.Match()`, a zero-output state with no trigger) and wire every
tracked output of the surviving fragment to it.  As in the source the
surviving `Fragment` itself is the value returned (the Python `__main__`
and the tests take `.enter` from it as the root). -/
def postfix_to_nfa (toks : List Char) : Except Err (Arena × Fragment) := do
  let (a, stack) ← runConstruct toks
  match stack with
  | [nfa] => .ok (wireAll (a ++ [⟨none, []⟩]) nfa.outputs a.length, nfa)
  | _ :: _ :: _ => .error .multipleFragments
  | [] => .error .emptyExpression

/-- How many fragments each operator token pops; `none` for literals. -/
def opArity (c : Char) : Option Nat :=
  if c = '.' then some 2
  else if c = '|' then some 2
  else if c = '?' then some 1
  else if c = '*' then some 1
  else if c = '+' then some 1
  else none

/-- The `for op in self._outputs` loop of `auto_expand` (regex.py lines
128-138), abstracted over the recursive call `f`: dangling slots are
skipped, the expansions of the targets are unioned left to right, and a
failure (`none` = recursion depth exhausted) aborts the loop as a raised
`RecursionError` would. -/
def expandWith (f : Nat → Option (Finset Nat)) :
    List (Option Nat) → Option (Finset Nat)
  | [] => some ∅
  | none :: rest => expandWith f rest
  | some t :: rest => do
    let e ← f t
    let r ← expandWith f rest
    pure (e ∪ r)

/-- `State.auto_expand` (regex.py lines 128-138) with an explicit
recursion-depth bound `fuel`.  A state with a trigger is its own
singleton closure; a control state unions the closures of its resolved
targets.  The source has no cycle detection, so on an epsilon cycle every
finite `fuel` is exhausted and the result is `none`. -/
def autoExpandF : Nat → Arena → Nat → Option (Finset Nat)
  | 0, _, _ => none
  | fuel + 1, a, i =>
    match (getNode a i).trigger with
    | some _ => some {i}
    | none => expandWith (fun t => autoExpandF fuel a t) (getNode a i).outputs

/-- The resolved (non-dangling) targets of state `j`'s outputs, as read by
the `set((op.next for op in state.outputs if op.next is not None))`
comprehension in `advance`. -/
def nextTargets (a : Arena) (j : Nat) : Finset Nat :=
  ((getNode a j).outputs.filterMap id).toFinset

/-- Result of one `State.advance` call: Python returns `True` for a match
or a set of now-active states. -/
inductive AdvRes where
  | matched
  | states (s : Finset Nat)
deriving DecidableEq

/-- The `for state in current_states` loop body of `advance` (regex.py
lines 150-164) run along one explicit enumeration `l` of the closure set,
with accumulator `acc`: a passing state with outputs contributes its
resolved targets; a passing state without outputs returns `True` at once. -/
def advLoop (a : Arena) (char : Option Char) : List Nat → Finset Nat → AdvRes
  | [], acc => .states acc
  | j :: rest, acc =>
    if (getNode a j).trigger = char then
      if (getNode a j).outputs = [] then .matched
      else advLoop a char rest (acc ∪ nextTargets a j)
    else advLoop a char rest acc

/-- `State.advance` (regex.py lines 140-166).  Python iterates the closure
set in an unspecified order; the loop's result is order-independent
(proved below as `advLoop_spec`), so we use the order-free form: a match
is signalled iff some passing state has no outputs, and otherwise the
resolved targets of all passing states are unioned. -/
def advanceF (fuel : Nat) (a : Arena) (i : Nat) (char : Option Char) :
    Option AdvRes :=
  (autoExpandF fuel a i).map (fun cur =>
    if (cur.filter (fun j =>
          (getNode a j).trigger = char ∧ (getNode a j).outputs = [])).Nonempty
    then .matched
    else .states ((cur.filter (fun j => (getNode a j).trigger = char)).biUnion
      (nextTargets a)))

/-- The `for state in active_states` loops of `match` (regex.py lines
172-200): advance every active state, return a match as soon as one
advance reports it, otherwise union the new state sets.  `none` when the
advance of some evaluated state exhausts the depth bound.  As in
`advanceF` this is the order-free rendering of the Python set loop. -/
def advAll (fuel : Nat) (a : Arena) (act : Finset Nat) (char : Option Char) :
    Option AdvRes :=
  if ∀ j ∈ act, (advanceF fuel a j char).isSome then
    if ∃ j ∈ act, advanceF fuel a j char = some .matched then some .matched
    else some (.states (act.biUnion (fun j =>
      match advanceF fuel a j char with
      | some (.states s) => s
      | _ => ∅)))
  else none

/-- Result of the character loop of `match`: a match was found mid-scan,
or the loop fell through with a final active set. -/
inductive LoopRes where
  | found
  | cont (act : Finset Nat)
deriving DecidableEq

/-- The `for c in string` loop of `match` (regex.py lines 172-188).  When
the union of new states is empty the loop `break`s keeping the previous
active set, exactly as the source does. -/
def forLoopF (fuel : Nat) (a : Arena) : List Char → Finset Nat → Option LoopRes
  | [], act => some (.cont act)
  | c :: rest, act => do
    match ← advAll fuel a act (some c) with
    | .matched => some .found
    | .states ns =>
      if ns = ∅ then some (.cont act)
      else forLoopF fuel a rest ns

/-- The trailing `while active_states` loop of `match` (regex.py lines
191-200), advancing with `char = None`; `wfuel` bounds its iterations. -/
def whileLoopF (fuel : Nat) (a : Arena) : Nat → Finset Nat → Option Bool
  | 0, _ => none
  | wfuel + 1, act =>
    if act = ∅ then some false
    else do
      match ← advAll fuel a act none with
      | .matched => some true
      | .states ns => whileLoopF fuel a wfuel ns

/-- `State.match` (regex.py lines 169-203) with depth bound `fuel`:
start from the singleton active set, run the character loop, then the
epsilon-only while loop; `some b` when the Python call returns `b`,
`none` when the bound is exhausted. -/
def matchF (fuel : Nat) (a : Arena) (i : Nat) (s : List Char) : Option Bool := do
  match ← forLoopF fuel a s {i} with
  | .found => some true
  | .cont act => whileLoopF fuel a fuel act

/-! The construction invariant: every stored target is a real arena index;
every node is literal-shaped (trigger, one output), control-shaped (no
trigger, two outputs) or match-shaped (no trigger, no outputs); every slot
of a fragment's tracked output set exists; and every dangling slot of the
heap is tracked by some fragment on the stack. -/

def validTargets (a : Arena) : Prop :=
  ∀ i j t, slot? a i j = some (some t) → t < a.length

def shapes (a : Arena) : Prop :=
  ∀ i, i < a.length →
    ((getNode a i).trigger ≠ none → (getNode a i).outputs.length = 1) ∧
    ((getNode a i).trigger = none →
      (getNode a i).outputs.length = 0 ∨ (getNode a i).outputs.length = 2)

def trackedValid (a : Arena) (stack : List Fragment) : Prop :=
  ∀ f ∈ stack, f.enter < a.length ∧
    ∀ p ∈ f.outputs, p.1 < a.length ∧ p.2 < (getNode a p.1).outputs.length

def danglingTracked (a : Arena) (stack : List Fragment) : Prop :=
  ∀ i j, slot? a i j = some none → ∃ f ∈ stack, (i, j) ∈ f.outputs

def Inv (a : Arena) (stack : List Fragment) : Prop :=
  validTargets a ∧ shapes a ∧ trackedValid a stack ∧ danglingTracked a stack

/-- What one constructor operation leaves untouched: existing states keep
their trigger and their number of output slots (C9's run-level part). -/
def preserved (a a' : Arena) : Prop :=
  a.length ≤ a'.length ∧ ∀ i, i < a.length →
    (getNode a' i).trigger = (getNode a i).trigger ∧
    (getNode a' i).outputs.length = (getNode a i).outputs.length

/-! Order-robustness of the matcher.  Python iterates `set` objects in an
unspecified order; here the two set loops of `match`/`advance` are
parameterized by an explicit enumeration `ord` of each set, rendering the
source loops literally (early `return True`, abort on a failed advance,
union otherwise).  We prove any valid enumeration yields the order-free
result, so two `match` calls on the same automaton and input agree. -/

def ordValid (ord : Finset Nat → List Nat) : Prop :=
  ∀ s : Finset Nat, (ord s).toFinset = s

/-- `advance` visiting the closure in the order `ord cur`. -/
def advanceOrd (ord : Finset Nat → List Nat) (fuel : Nat) (a : Arena)
    (i : Nat) (char : Option Char) : Option AdvRes :=
  (autoExpandF fuel a i).map (fun cur => advLoop a char (ord cur) ∅)

/-- The `for state in active_states` loop bodies of `match` (regex.py
lines 174-181 and 193-198) along the enumeration `l`, accumulating the
union of the advance results. -/
def actLoop (fuel : Nat) (a : Arena) (char : Option Char)
    (ord : Finset Nat → List Nat) :
    List Nat → Finset Nat → Option AdvRes
  | [], acc => some (.states acc)
  | j :: rest, acc => do
    match ← advanceOrd ord fuel a j char with
    | .matched => some .matched
    | .states s => actLoop fuel a char ord rest (acc ∪ s)

/-- The character loop of `match` with explicit set enumerations. -/
def forLoopOrd (ord : Finset Nat → List Nat) (fuel : Nat) (a : Arena) :
    List Char → Finset Nat → Option LoopRes
  | [], act => some (.cont act)
  | c :: rest, act => do
    match ← actLoop fuel a (some c) ord (ord act) ∅ with
    | .matched => some .found
    | .states ns =>
      if ns = ∅ then some (.cont act)
      else forLoopOrd ord fuel a rest ns

/-- The trailing while loop of `match` with explicit set enumerations. -/
def whileLoopOrd (ord : Finset Nat → List Nat) (fuel : Nat) (a : Arena) :
    Nat → Finset Nat → Option Bool
  | 0, _ => none
  | wfuel + 1, act =>
    if act = ∅ then some false
    else do
      match ← actLoop fuel a none ord (ord act) ∅ with
      | .matched => some true
      | .states ns => whileLoopOrd ord fuel a wfuel ns

/-- `State.match` with explicit set enumerations. -/
def matchOrd (ord : Finset Nat → List Nat) (fuel : Nat) (a : Arena)
    (i : Nat) (s : List Char) : Option Bool := do
  match ← forLoopOrd ord fuel a s {i} with
  | .found => some true
  | .cont act => whileLoopOrd ord fuel a fuel act

/-! During the token loop every created state has at least one output
slot (literals one, control states two); the zero-output match state is
created only by the final wiring stage, making it unique in the result. -/

def posArity (a : Arena) : Prop :=
  ∀ i, i < a.length → (getNode a i).outputs.length ≠ 0

/-- Decidable equality for `Except`, so concrete construction results can
be checked by `decide`. -/
instance {e a : Type} [DecidableEq e] [DecidableEq a] :
    DecidableEq (Except e a) := fun x y =>
  match x, y with
  | .error u, .error v =>
    if h : u = v then .isTrue (congrArg Except.error h)
    else .isFalse (fun hc => h (by injection hc))
  | .error _, .ok _ => .isFalse (fun hc => Except.noConfusion hc)
  | .ok _, .error _ => .isFalse (fun hc => Except.noConfusion hc)
  | .ok u, .ok v =>
    if h : u = v then .isTrue (congrArg Except.ok h)
    else .isFalse (fun hc => h (by injection hc))

/-- The heap the code constructs for postfix "a". -/
def arenaLit : Arena := [⟨some 'a', [some 1]⟩, ⟨none, []⟩]

/-- The fragment `postfix_to_nfa` returns for postfix "a". -/
def fragLit : Fragment := ⟨0, [(0, 0)]⟩

/-- The heap the code constructs for postfix "a**": state 1 is the inner
star's control state, state 2 the outer one; their epsilon edges form the
cycle 1 → 2 → 1. -/
def arenaStar2 : Arena :=
  [⟨some 'a', [some 1]⟩, ⟨none, [some 0, some 2]⟩,
   ⟨none, [some 1, some 3]⟩, ⟨none, []⟩]

/-- The heap the code constructs for postfix "a?": state 1 is the control
state, state 2 the terminal Match state, reachable from 1 by one epsilon
edge. -/
def arenaOpt : Arena :=
  [⟨some 'a', [some 2]⟩, ⟨none, [some 0, some 2]⟩, ⟨none, []⟩]

/-- One concrete valid enumeration: ascending order. -/
def sortOrd : Finset Nat → List Nat := fun s => s.sort (· ≤ ·)

/-! Basic lemmas about the heap primitives. -/

theorem lt_of_getElem?_some {α : Type} {l : List α} {i : Nat} {x : α}
    (h : l[i]? = some x) : i < l.length := by
  by_contra hc
  rw [List.getElem?_eq_none (Nat.le_of_not_lt hc)] at h
  exact Option.noConfusion h

theorem getElem?_setSlot (a : Arena) (p : Nat × Nat) (t : Option Nat) (i : Nat) :
    (setSlot a p t)[i]? =
      if i = p.1 then (a[i]?).map (fun s => ⟨s.trigger, s.outputs.set p.2 t⟩)
      else a[i]? := by
  unfold setSlot
  cases h : a[p.1]? with
  | none =>
    by_cases hip : i = p.1
    · subst hip; simp [h]
    · simp [hip]
  | some s =>
    by_cases hip : i = p.1
    · subst hip
      rw [List.getElem?_set_eq (lt_of_getElem?_some h)]
      simp [h]
    · rw [List.getElem?_set_ne (fun hh => hip hh.symm)]
      simp [hip]

theorem length_setSlot (a : Arena) (p : Nat × Nat) (t : Option Nat) :
    (setSlot a p t).length = a.length := by
  unfold setSlot
  cases h : a[p.1]? with
  | none => rfl
  | some s => simp

theorem getNode_setSlot_trigger (a : Arena) (p : Nat × Nat) (t : Option Nat)
    (i : Nat) :
    (getNode (setSlot a p t) i).trigger = (getNode a i).trigger := by
  unfold getNode
  rw [getElem?_setSlot]
  by_cases hip : i = p.1
  · simp only [hip, if_pos rfl]
    cases a[p.1]? <;> rfl
  · rw [if_neg hip]

theorem getNode_setSlot_outLen (a : Arena) (p : Nat × Nat) (t : Option Nat)
    (i : Nat) :
    (getNode (setSlot a p t) i).outputs.length = (getNode a i).outputs.length := by
  unfold getNode
  rw [getElem?_setSlot]
  by_cases hip : i = p.1
  · simp only [hip, if_pos rfl]
    cases a[p.1]? with
    | none => rfl
    | some s => simp
  · rw [if_neg hip]

theorem slot?_setSlot_ne (a : Arena) (p : Nat × Nat) (t : Option Nat)
    {q : Nat × Nat} (h : q ≠ p) :
    slot? (setSlot a p t) q.1 q.2 = slot? a q.1 q.2 := by
  unfold slot?
  rw [getElem?_setSlot]
  by_cases h1 : q.1 = p.1
  · have h2 : q.2 ≠ p.2 := by
      intro h2
      exact h (Prod.ext h1 h2)
    rw [if_pos h1]
    cases hq : a[q.1]? with
    | none => rfl
    | some s =>
      show (s.outputs.set p.2 t)[q.2]? = s.outputs[q.2]?
      exact List.getElem?_set_ne (fun hh => h2 hh.symm)
  · rw [if_neg h1]

theorem slot?_setSlot_eq (a : Arena) (p : Nat × Nat) (t : Option Nat)
    (h1 : p.1 < a.length) (h2 : p.2 < (getNode a p.1).outputs.length) :
    slot? (setSlot a p t) p.1 p.2 = some t := by
  unfold slot?
  rw [getElem?_setSlot, if_pos rfl]
  cases hq : a[p.1]? with
  | none =>
    have hsome : a[p.1]? = some a[p.1] :=
      (List.getElem?_eq_some_getElem_iff a p.1 h1).mpr trivial
    rw [hq] at hsome
    exact Option.noConfusion hsome
  | some s =>
    show (s.outputs.set p.2 t)[p.2]? = some t
    have hs : getNode a p.1 = s := by unfold getNode; rw [hq]; rfl
    rw [hs] at h2
    exact List.getElem?_set_eq h2

theorem slot?_setSlot_cases (a : Arena) (p : Nat × Nat) (t : Option Nat)
    {i j : Nat} {op : Option Nat}
    (h : slot? (setSlot a p t) i j = some op) :
    op = t ∨ slot? a i j = some op := by
  by_cases hip : (i, j) = p
  · subst hip
    unfold slot? at h
    rw [getElem?_setSlot, if_pos rfl] at h
    cases hq : a[i]? with
    | none => rw [hq] at h; exact Option.noConfusion h
    | some s =>
      rw [hq] at h
      change (s.outputs.set j t)[j]? = some op at h
      by_cases hj : j < s.outputs.length
      · left
        rw [List.getElem?_set_eq hj] at h
        exact (Option.some_inj.mp h).symm
      · right
        rw [List.set_eq_of_length_le (Nat.le_of_not_lt hj)] at h
        unfold slot?
        rw [hq]
        exact h
  · right
    rw [slot?_setSlot_ne a p t hip] at h
    exact h

theorem slot?_bounds {a : Arena} {i j : Nat} {op : Option Nat}
    (h : slot? a i j = some op) :
    i < a.length ∧ j < (getNode a i).outputs.length := by
  unfold slot? at h
  cases hq : a[i]? with
  | none => rw [hq] at h; exact Option.noConfusion h
  | some s =>
    rw [hq] at h
    change s.outputs[j]? = some op at h
    have hs : getNode a i = s := by unfold getNode; rw [hq]; rfl
    exact ⟨lt_of_getElem?_some hq, by rw [hs]; exact lt_of_getElem?_some h⟩

/-! Lemmas about `wireAll` (a fold of `setSlot`). -/

theorem wireAll_nil (a : Arena) (t : Nat) : wireAll a [] t = a := rfl

theorem wireAll_cons (a : Arena) (p : Nat × Nat) (ops : List (Nat × Nat))
    (t : Nat) :
    wireAll a (p :: ops) t = wireAll (setSlot a p (some t)) ops t := rfl

theorem length_wireAll (ops : List (Nat × Nat)) (a : Arena) (t : Nat) :
    (wireAll a ops t).length = a.length := by
  induction ops generalizing a with
  | nil => rfl
  | cons p ops ih => rw [wireAll_cons, ih, length_setSlot]

theorem getNode_wireAll_trigger (ops : List (Nat × Nat)) (a : Arena) (t : Nat)
    (i : Nat) :
    (getNode (wireAll a ops t) i).trigger = (getNode a i).trigger := by
  induction ops generalizing a with
  | nil => rfl
  | cons p ops ih => rw [wireAll_cons, ih, getNode_setSlot_trigger]

theorem getNode_wireAll_outLen (ops : List (Nat × Nat)) (a : Arena) (t : Nat)
    (i : Nat) :
    (getNode (wireAll a ops t) i).outputs.length =
      (getNode a i).outputs.length := by
  induction ops generalizing a with
  | nil => rfl
  | cons p ops ih => rw [wireAll_cons, ih, getNode_setSlot_outLen]

theorem slot?_wireAll (ops : List (Nat × Nat)) (a : Arena) (t : Nat)
    (q : Nat × Nat) (hq1 : q.1 < a.length)
    (hq2 : q.2 < (getNode a q.1).outputs.length) :
    slot? (wireAll a ops t) q.1 q.2 =
      if q ∈ ops then some (some t) else slot? a q.1 q.2 := by
  induction ops generalizing a with
  | nil => simp [wireAll_nil]
  | cons p ops ih =>
    rw [wireAll_cons]
    have hq1' : q.1 < (setSlot a p (some t)).length := by
      rw [length_setSlot]; exact hq1
    have hq2' : q.2 < (getNode (setSlot a p (some t)) q.1).outputs.length := by
      rw [getNode_setSlot_outLen]; exact hq2
    rw [ih (setSlot a p (some t)) hq1' hq2']
    by_cases hmem : q ∈ ops
    · simp [hmem]
    · by_cases hqp : q = p
      · subst hqp
        rw [if_neg hmem, slot?_setSlot_eq a q (some t) hq1 hq2]
        simp
      · rw [if_neg hmem, slot?_setSlot_ne a p (some t) hqp,
          if_neg (by simp [hmem, hqp])]

theorem slot?_wireAll_cases (ops : List (Nat × Nat)) (a : Arena) (t : Nat)
    {i j : Nat} {op : Option Nat}
    (h : slot? (wireAll a ops t) i j = some op) :
    op = some t ∨ slot? a i j = some op := by
  induction ops generalizing a with
  | nil => exact Or.inr h
  | cons p ops ih =>
    rw [wireAll_cons] at h
    rcases ih (setSlot a p (some t)) h with h1 | h1
    · exact Or.inl h1
    · rcases slot?_setSlot_cases a p (some t) h1 with h2 | h2
      · exact Or.inl h2
      · exact Or.inr h2

/-! Lemmas about appending a freshly created state. -/

theorem getNode_append_lt (a : Arena) (n : State) {i : Nat} (h : i < a.length) :
    getNode (a ++ [n]) i = getNode a i := by
  unfold getNode
  rw [List.getElem?_append_left h]

theorem getNode_append_self (a : Arena) (n : State) :
    getNode (a ++ [n]) a.length = n := by
  unfold getNode
  rw [List.getElem?_concat_length]
  rfl

theorem slot?_append_lt (a : Arena) (n : State) {i : Nat} (j : Nat)
    (h : i < a.length) :
    slot? (a ++ [n]) i j = slot? a i j := by
  unfold slot?
  rw [List.getElem?_append_left h]

theorem slot?_append_self (a : Arena) (n : State) (j : Nat) :
    slot? (a ++ [n]) a.length j = n.outputs[j]? := by
  unfold slot?
  rw [List.getElem?_concat_length]
  rfl

theorem Inv_nil : Inv [] [] := by
  refine ⟨?_, ?_, ?_, ?_⟩
  · intro i j t h
    simp [slot?] at h
  · intro i h
    simp at h
  · intro f h
    simp at h
  · intro i j h
    simp [slot?] at h

/-! Preservation of the invariant pieces by the heap operations. -/

theorem validTargets_append (a : Arena) (n : State) (hv : validTargets a)
    (hn : ∀ t, some t ∈ n.outputs → t < a.length + 1) :
    validTargets (a ++ [n]) := by
  intro i j t h
  have hb := slot?_bounds h
  rw [List.length_append, List.length_singleton]
  rcases Nat.lt_succ_iff_lt_or_eq.mp (by
    simpa [List.length_append] using hb.1) with hi | hi
  · rw [slot?_append_lt a n j hi] at h
    exact Nat.lt_succ_of_lt (hv i j t h)
  · subst hi
    rw [slot?_append_self a n j] at h
    exact hn t (List.getElem?_mem h)

theorem validTargets_wireAll (ops : List (Nat × Nat)) (a : Arena) (t : Nat)
    (hv : validTargets a) (ht : t < a.length) :
    validTargets (wireAll a ops t) := by
  intro i j u h
  rw [length_wireAll]
  rcases slot?_wireAll_cases ops a t h with h1 | h1
  · rw [Option.some_inj.mp h1]
    exact ht
  · exact hv i j u h1

theorem shapes_append (a : Arena) (n : State) (hs : shapes a)
    (hn : (n.trigger ≠ none → n.outputs.length = 1) ∧
          (n.trigger = none → n.outputs.length = 0 ∨ n.outputs.length = 2)) :
    shapes (a ++ [n]) := by
  intro i hi
  rcases Nat.lt_succ_iff_lt_or_eq.mp (by
    simpa [List.length_append] using hi) with h | h
  · rw [getNode_append_lt a n h]
    exact hs i h
  · subst h
    rw [getNode_append_self a n]
    exact hn

theorem shapes_wireAll (ops : List (Nat × Nat)) (a : Arena) (t : Nat)
    (hs : shapes a) : shapes (wireAll a ops t) := by
  intro i hi
  rw [length_wireAll] at hi
  rw [getNode_wireAll_trigger, getNode_wireAll_outLen]
  exact hs i hi

theorem trackedValid_append (a : Arena) (n : State) {stack : List Fragment}
    (h : trackedValid a stack) : trackedValid (a ++ [n]) stack := by
  intro f hf
  rcases h f hf with ⟨h1, h2⟩
  refine ⟨by simpa [List.length_append] using Nat.lt_succ_of_lt h1, ?_⟩
  intro p hp
  rcases h2 p hp with ⟨hp1, hp2⟩
  refine ⟨by simpa [List.length_append] using Nat.lt_succ_of_lt hp1, ?_⟩
  rw [getNode_append_lt a n hp1]
  exact hp2

theorem trackedValid_wireAll (ops : List (Nat × Nat)) (a : Arena) (t : Nat)
    {stack : List Fragment} (h : trackedValid a stack) :
    trackedValid (wireAll a ops t) stack := by
  intro f hf
  rcases h f hf with ⟨h1, h2⟩
  refine ⟨by rw [length_wireAll]; exact h1, ?_⟩
  intro p hp
  rcases h2 p hp with ⟨hp1, hp2⟩
  exact ⟨by rw [length_wireAll]; exact hp1,
    by rw [getNode_wireAll_outLen]; exact hp2⟩

theorem dangling_of_wireAll (ops : List (Nat × Nat)) (a : Arena) (t : Nat)
    {i j : Nat} (h : slot? (wireAll a ops t) i j = some none) :
    slot? a i j = some none := by
  rcases slot?_wireAll_cases ops a t h with h1 | h1
  · exact Option.noConfusion h1
  · exact h1

theorem not_dangling_of_wired (ops : List (Nat × Nat)) (a : Arena) (t : Nat)
    {i j : Nat} (hmem : (i, j) ∈ ops)
    (h1 : i < a.length) (h2 : j < (getNode a i).outputs.length) :
    slot? (wireAll a ops t) i j = some (some t) := by
  have := slot?_wireAll ops a t (i, j) h1 h2
  rw [if_pos hmem] at this
  exact this

/-- One constructor step preserves the invariant. -/
theorem step_inv {a : Arena} {stack : List Fragment} {c : Char}
    {a' : Arena} {st' : List Fragment}
    (hInv : Inv a stack) (h : step a stack c = .ok (a', st')) :
    Inv a' st' := by
  obtain ⟨hv, hs, htv, hdt⟩ := hInv
  unfold step at h
  by_cases hc1 : c = '.'
  · rw [if_pos hc1] at h
    rcases stack with _ | ⟨f2, _ | ⟨f1, rest⟩⟩
    · exact Except.noConfusion h
    · exact Except.noConfusion h
    · injection h with h
      injection h with ha hst
      subst ha hst
      obtain ⟨hf2e, hf2o⟩ := htv f2 (List.mem_cons_self _ _)
      obtain ⟨hf1e, hf1o⟩ := htv f1 (List.mem_cons_of_mem _ (List.mem_cons_self _ _))
      have htv' : trackedValid a (⟨f1.enter, f2.outputs⟩ :: rest) := by
        intro g hg
        rcases List.mem_cons.mp hg with heq | hg
        · rw [heq]
          exact ⟨hf1e, hf2o⟩
        · exact htv g (List.mem_cons_of_mem _ (List.mem_cons_of_mem _ hg))
      refine ⟨validTargets_wireAll _ a f2.enter hv hf2e,
        shapes_wireAll _ a _ hs, trackedValid_wireAll _ a _ htv', ?_⟩
      intro i j hd
      have hda := dangling_of_wireAll _ a f2.enter hd
      obtain ⟨g, hg, hmem⟩ := hdt i j hda
      rcases List.mem_cons.mp hg with heq | hg1
      · rw [heq] at hmem
        exact ⟨_, List.mem_cons_self _ _, hmem⟩
      rcases List.mem_cons.mp hg1 with heq | hg2
      · rw [heq] at hmem
        obtain ⟨hi, hj⟩ := hf1o (i, j) hmem
        have := not_dangling_of_wired f1.outputs a f2.enter hmem hi hj
        rw [hd] at this
        exact absurd (Option.some_inj.mp this) (by simp)
      · exact ⟨g, List.mem_cons_of_mem _ hg2, hmem⟩
  · rw [if_neg hc1] at h
    by_cases hc2 : c = '|'
    · rw [if_pos hc2] at h
      rcases stack with _ | ⟨f2, _ | ⟨f1, rest⟩⟩
      · exact Except.noConfusion h
      · exact Except.noConfusion h
      · injection h with h
        injection h with ha hst
        subst ha hst
        obtain ⟨hf2e, hf2o⟩ := htv f2 (List.mem_cons_self _ _)
        obtain ⟨hf1e, hf1o⟩ := htv f1 (List.mem_cons_of_mem _ (List.mem_cons_self _ _))
        refine ⟨validTargets_append a _ hv ?_, shapes_append a _ hs
          ⟨fun hh => absurd rfl hh, fun _ => Or.inr rfl⟩, ?_, ?_⟩
        · intro t ht
          rcases List.mem_cons.mp ht with ht | ht
          · rw [Option.some_inj.mp ht]
            exact Nat.lt_succ_of_lt hf1e
          rcases List.mem_cons.mp ht with ht | ht
          · rw [Option.some_inj.mp ht]
            exact Nat.lt_succ_of_lt hf2e
          · simp at ht
        · intro g hg
          rcases List.mem_cons.mp hg with heq | hg
          · rw [heq]
            refine ⟨by simp, ?_⟩
            intro p hp
            rcases List.mem_append.mp hp with hp | hp
            · obtain ⟨h1, h2⟩ := hf1o p hp
              exact ⟨by simp [Nat.lt_succ_of_lt h1],
                by rw [getNode_append_lt a _ h1]; exact h2⟩
            · obtain ⟨h1, h2⟩ := hf2o p hp
              exact ⟨by simp [Nat.lt_succ_of_lt h1],
                by rw [getNode_append_lt a _ h1]; exact h2⟩
          · exact (trackedValid_append a _ (fun g' hg' => htv g'
              (List.mem_cons_of_mem _ (List.mem_cons_of_mem _ hg')))) g hg
        · intro i j hd
          have hb := slot?_bounds hd
          rcases Nat.lt_succ_iff_lt_or_eq.mp (by
            simpa [List.length_append] using hb.1) with hi | hi
          · rw [slot?_append_lt a _ j hi] at hd
            obtain ⟨g, hg, hmem⟩ := hdt i j hd
            rcases List.mem_cons.mp hg with heq | hg1
            · rw [heq] at hmem
              exact ⟨_, List.mem_cons_self _ _,
                List.mem_append.mpr (Or.inr hmem)⟩
            rcases List.mem_cons.mp hg1 with heq | hg2
            · rw [heq] at hmem
              exact ⟨_, List.mem_cons_self _ _,
                List.mem_append.mpr (Or.inl hmem)⟩
            · exact ⟨g, List.mem_cons_of_mem _ hg2, hmem⟩
          · subst hi
            rw [slot?_append_self a _ j] at hd
            rcases j with _ | _ | j <;> simp at hd
    · rw [if_neg hc2] at h
      by_cases hc3 : c = '?'
      · rw [if_pos hc3] at h
        rcases stack with _ | ⟨f, rest⟩
        · exact Except.noConfusion h
        · injection h with h
          injection h with ha hst
          subst ha hst
          obtain ⟨hfe, hfo⟩ := htv f (List.mem_cons_self _ _)
          refine ⟨validTargets_append a _ hv ?_, shapes_append a _ hs
            ⟨fun hh => absurd rfl hh, fun _ => Or.inr rfl⟩, ?_, ?_⟩
          · intro t ht
            rcases List.mem_cons.mp ht with ht | ht
            · rw [Option.some_inj.mp ht]
              exact Nat.lt_succ_of_lt hfe
            rcases List.mem_cons.mp ht with ht | ht
            · exact Option.noConfusion ht
            · simp at ht
          · intro g hg
            rcases List.mem_cons.mp hg with heq | hg
            · rw [heq]
              refine ⟨by simp, ?_⟩
              intro p hp
              rcases List.mem_append.mp hp with hp | hp
              · obtain ⟨h1, h2⟩ := hfo p hp
                exact ⟨by simp [Nat.lt_succ_of_lt h1],
                  by rw [getNode_append_lt a _ h1]; exact h2⟩
              · rw [List.mem_singleton.mp hp]
                refine ⟨by simp, ?_⟩
                rw [getNode_append_self a _]
                simp
            · exact (trackedValid_append a _ (fun g' hg' => htv g'
                (List.mem_cons_of_mem _ hg'))) g hg
          · intro i j hd
            have hb := slot?_bounds hd
            rcases Nat.lt_succ_iff_lt_or_eq.mp (by
              simpa [List.length_append] using hb.1) with hi | hi
            · rw [slot?_append_lt a _ j hi] at hd
              obtain ⟨g, hg, hmem⟩ := hdt i j hd
              rcases List.mem_cons.mp hg with heq | hg1
              · rw [heq] at hmem
                exact ⟨_, List.mem_cons_self _ _,
                  List.mem_append.mpr (Or.inl hmem)⟩
              · exact ⟨g, List.mem_cons_of_mem _ hg1, hmem⟩
            · subst hi
              rw [slot?_append_self a _ j] at hd
              rcases j with _ | _ | j
              · simp at hd
              · exact ⟨_, List.mem_cons_self _ _,
                  List.mem_append.mpr (Or.inr (List.mem_singleton.mpr rfl))⟩
              · simp at hd
      · rw [if_neg hc3] at h
        by_cases hc4 : c = '*'
        · rw [if_pos hc4] at h
          rcases stack with _ | ⟨f, rest⟩
          · exact Except.noConfusion h
          · injection h with h
            injection h with ha hst
            subst ha hst
            obtain ⟨hfe, hfo⟩ := htv f (List.mem_cons_self _ _)
            have hvApp : validTargets (a ++ [⟨none, [some f.enter, none]⟩]) := by
              refine validTargets_append a _ hv ?_
              intro t ht
              rcases List.mem_cons.mp ht with ht | ht
              · rw [Option.some_inj.mp ht]
                exact Nat.lt_succ_of_lt hfe
              rcases List.mem_cons.mp ht with ht | ht
              · exact Option.noConfusion ht
              · simp at ht
            have hlen : a.length <
                (a ++ [(⟨none, [some f.enter, none]⟩ : State)]).length := by
              simp
            have htv' : trackedValid (a ++ [⟨none, [some f.enter, none]⟩])
                (⟨a.length, [(a.length, 1)]⟩ :: rest) := by
              intro g hg
              rcases List.mem_cons.mp hg with heq | hg
              · rw [heq]
                refine ⟨by simp, ?_⟩
                intro p hp
                rw [List.mem_singleton.mp hp]
                refine ⟨by simp, ?_⟩
                rw [getNode_append_self a _]
                simp
              · exact (trackedValid_append a _ (fun g' hg' => htv g'
                  (List.mem_cons_of_mem _ hg'))) g hg
            refine ⟨validTargets_wireAll _ _ _ hvApp hlen,
              shapes_wireAll _ _ _ (shapes_append a _ hs
                ⟨fun hh => absurd rfl hh, fun _ => Or.inr rfl⟩),
              trackedValid_wireAll _ _ _ htv', ?_⟩
            intro i j hd
            have hda := dangling_of_wireAll _ _ _ hd
            have hb := slot?_bounds hda
            rcases Nat.lt_succ_iff_lt_or_eq.mp (by
              simpa [List.length_append] using hb.1) with hi | hi
            · rw [slot?_append_lt a _ j hi] at hda
              obtain ⟨g, hg, hmem⟩ := hdt i j hda
              rcases List.mem_cons.mp hg with heq | hg1
              · rw [heq] at hmem
                obtain ⟨h1, h2⟩ := hfo (i, j) hmem
                have := not_dangling_of_wired f.outputs
                  (a ++ [⟨none, [some f.enter, none]⟩]) a.length hmem
                  (by simp [Nat.lt_succ_of_lt h1])
                  (by rw [getNode_append_lt a _ h1]; exact h2)
                rw [hd] at this
                exact absurd (Option.some_inj.mp this) (by simp)
              · exact ⟨g, List.mem_cons_of_mem _ hg1, hmem⟩
            · subst hi
              rw [slot?_append_self a _ j] at hda
              rcases j with _ | _ | j
              · simp at hda
              · exact ⟨_, List.mem_cons_self _ _, List.mem_singleton.mpr rfl⟩
              · simp at hda
        · rw [if_neg hc4] at h
          by_cases hc5 : c = '+'
          · rw [if_pos hc5] at h
            rcases stack with _ | ⟨f, rest⟩
            · exact Except.noConfusion h
            · injection h with h
              injection h with ha hst
              subst ha hst
              obtain ⟨hfe, hfo⟩ := htv f (List.mem_cons_self _ _)
              have hvApp : validTargets (a ++ [⟨none, [some f.enter, none]⟩]) := by
                refine validTargets_append a _ hv ?_
                intro t ht
                rcases List.mem_cons.mp ht with ht | ht
                · rw [Option.some_inj.mp ht]
                  exact Nat.lt_succ_of_lt hfe
                rcases List.mem_cons.mp ht with ht | ht
                · exact Option.noConfusion ht
                · simp at ht
              have hlen : a.length <
                  (a ++ [(⟨none, [some f.enter, none]⟩ : State)]).length := by
                simp
              have htv' : trackedValid (a ++ [⟨none, [some f.enter, none]⟩])
                  (⟨f.enter, [(a.length, 1)]⟩ :: rest) := by
                intro g hg
                rcases List.mem_cons.mp hg with heq | hg
                · rw [heq]
                  refine ⟨by simp [Nat.lt_succ_of_lt hfe], ?_⟩
                  intro p hp
                  rw [List.mem_singleton.mp hp]
                  refine ⟨by simp, ?_⟩
                  rw [getNode_append_self a _]
                  simp
                · exact (trackedValid_append a _ (fun g' hg' => htv g'
                    (List.mem_cons_of_mem _ hg'))) g hg
              refine ⟨validTargets_wireAll _ _ _ hvApp hlen,
                shapes_wireAll _ _ _ (shapes_append a _ hs
                  ⟨fun hh => absurd rfl hh, fun _ => Or.inr rfl⟩),
                trackedValid_wireAll _ _ _ htv', ?_⟩
              intro i j hd
              have hda := dangling_of_wireAll _ _ _ hd
              have hb := slot?_bounds hda
              rcases Nat.lt_succ_iff_lt_or_eq.mp (by
                simpa [List.length_append] using hb.1) with hi | hi
              · rw [slot?_append_lt a _ j hi] at hda
                obtain ⟨g, hg, hmem⟩ := hdt i j hda
                rcases List.mem_cons.mp hg with heq | hg1
                · rw [heq] at hmem
                  obtain ⟨h1, h2⟩ := hfo (i, j) hmem
                  have := not_dangling_of_wired f.outputs
                    (a ++ [⟨none, [some f.enter, none]⟩]) a.length hmem
                    (by simp [Nat.lt_succ_of_lt h1])
                    (by rw [getNode_append_lt a _ h1]; exact h2)
                  rw [hd] at this
                  exact absurd (Option.some_inj.mp this) (by simp)
                · exact ⟨g, List.mem_cons_of_mem _ hg1, hmem⟩
              · subst hi
                rw [slot?_append_self a _ j] at hda
                rcases j with _ | _ | j
                · simp at hda
                · exact ⟨_, List.mem_cons_self _ _, List.mem_singleton.mpr rfl⟩
                · simp at hda
          · rw [if_neg hc5] at h
            injection h with h
            injection h with ha hst
            subst ha hst
            refine ⟨validTargets_append a _ hv ?_, shapes_append a _ hs
              ⟨fun _ => rfl, fun hh => Option.noConfusion hh⟩, ?_, ?_⟩
            · intro t ht
              rcases List.mem_cons.mp ht with ht | ht
              · exact Option.noConfusion ht
              · simp at ht
            · intro g hg
              rcases List.mem_cons.mp hg with heq | hg
              · rw [heq]
                refine ⟨by simp, ?_⟩
                intro p hp
                rw [List.mem_singleton.mp hp]
                refine ⟨by simp, ?_⟩
                rw [getNode_append_self a _]
                simp
              · exact (trackedValid_append a _ htv) g hg
            · intro i j hd
              have hb := slot?_bounds hd
              rcases Nat.lt_succ_iff_lt_or_eq.mp (by
                simpa [List.length_append] using hb.1) with hi | hi
              · rw [slot?_append_lt a _ j hi] at hd
                obtain ⟨g, hg, hmem⟩ := hdt i j hd
                exact ⟨g, List.mem_cons_of_mem _ hg, hmem⟩
              · subst hi
                rw [slot?_append_self a _ j] at hd
                rcases j with _ | j
                · exact ⟨_, List.mem_cons_self _ _, List.mem_singleton.mpr rfl⟩
                · simp at hd

/-- The invariant holds after any successful prefix of the token loop. -/
theorem foldlM_inv (toks : List Char) :
    ∀ (a : Arena) (stack : List Fragment) (res : Arena × List Fragment),
    Inv a stack →
    toks.foldlM (fun p c => step p.1 p.2 c) (a, stack) = .ok res →
    Inv res.1 res.2 := by
  induction toks with
  | nil =>
    intro a stack res hInv h
    injection h with h
    rw [← h]
    exact hInv
  | cons c rest ih =>
    intro a stack res hInv h
    rw [List.foldlM_cons] at h
    cases hstep : step a stack c with
    | error e =>
      rw [hstep] at h
      exact Except.noConfusion h
    | ok p =>
      rw [hstep] at h
      obtain ⟨a1, st1⟩ := p
      exact ih a1 st1 res (step_inv hInv hstep) h

theorem runConstruct_inv {toks : List Char} {a : Arena}
    {stack : List Fragment} (h : runConstruct toks = .ok (a, stack)) :
    Inv a stack :=
  foldlM_inv toks [] [] (a, stack) Inv_nil h

/-- A successful `postfix_to_nfa` run decomposes into a successful token
loop leaving one fragment, followed by the final match-state wiring. -/
theorem postfix_to_nfa_cases {toks : List Char} {a : Arena} {f : Fragment}
    (h : postfix_to_nfa toks = .ok (a, f)) :
    ∃ a0, runConstruct toks = .ok (a0, [f]) ∧
      a = wireAll (a0 ++ [⟨none, []⟩]) f.outputs a0.length := by
  unfold postfix_to_nfa at h
  cases hrc : runConstruct toks with
  | error e =>
    rw [hrc] at h
    exact Except.noConfusion h
  | ok p =>
    rw [hrc] at h
    obtain ⟨a0, stack⟩ := p
    rcases stack with _ | ⟨nfa, _ | ⟨g, rest⟩⟩
    · exact Except.noConfusion h
    · injection h with h
      injection h with h1 h2
      subst h2
      exact ⟨a0, rfl, h1.symm⟩
    · exact Except.noConfusion h

theorem preserved_refl (a : Arena) : preserved a a :=
  ⟨Nat.le_refl _, fun _ _ => ⟨rfl, rfl⟩⟩

theorem preserved_trans {a b c : Arena} (h1 : preserved a b)
    (h2 : preserved b c) : preserved a c := by
  refine ⟨Nat.le_trans h1.1 h2.1, fun i hi => ?_⟩
  obtain ⟨t1, l1⟩ := h1.2 i hi
  obtain ⟨t2, l2⟩ := h2.2 i (Nat.lt_of_lt_of_le hi h1.1)
  exact ⟨t2.trans t1, l2.trans l1⟩

theorem preserved_setSlot (a : Arena) (p : Nat × Nat) (t : Option Nat) :
    preserved a (setSlot a p t) := by
  refine ⟨by rw [length_setSlot], fun i _ => ?_⟩
  exact ⟨getNode_setSlot_trigger a p t i, getNode_setSlot_outLen a p t i⟩

theorem preserved_wireAll (a : Arena) (ops : List (Nat × Nat)) (t : Nat) :
    preserved a (wireAll a ops t) := by
  refine ⟨by rw [length_wireAll], fun i _ => ?_⟩
  exact ⟨getNode_wireAll_trigger ops a t i, getNode_wireAll_outLen ops a t i⟩

theorem preserved_append (a : Arena) (n : State) : preserved a (a ++ [n]) := by
  refine ⟨by simp, fun i hi => ?_⟩
  rw [getNode_append_lt a n hi]
  exact ⟨rfl, rfl⟩

/-- One constructor step only appends states and retargets slots: every
state already in the heap keeps its trigger and its output arity. -/
theorem step_preserved {a : Arena} {stack : List Fragment} {c : Char}
    {a' : Arena} {st' : List Fragment}
    (h : step a stack c = .ok (a', st')) : preserved a a' := by
  unfold step at h
  by_cases hc1 : c = '.'
  · rw [if_pos hc1] at h
    rcases stack with _ | ⟨f2, _ | ⟨f1, rest⟩⟩
    · exact Except.noConfusion h
    · exact Except.noConfusion h
    · injection h with h
      injection h with ha hst
      rw [← ha]
      exact preserved_wireAll a _ _
  · rw [if_neg hc1] at h
    by_cases hc2 : c = '|'
    · rw [if_pos hc2] at h
      rcases stack with _ | ⟨f2, _ | ⟨f1, rest⟩⟩
      · exact Except.noConfusion h
      · exact Except.noConfusion h
      · injection h with h
        injection h with ha hst
        rw [← ha]
        exact preserved_append a _
    · rw [if_neg hc2] at h
      by_cases hc3 : c = '?'
      · rw [if_pos hc3] at h
        rcases stack with _ | ⟨f, rest⟩
        · exact Except.noConfusion h
        · injection h with h
          injection h with ha hst
          rw [← ha]
          exact preserved_append a _
      · rw [if_neg hc3] at h
        by_cases hc4 : c = '*'
        · rw [if_pos hc4] at h
          rcases stack with _ | ⟨f, rest⟩
          · exact Except.noConfusion h
          · injection h with h
            injection h with ha hst
            rw [← ha]
            exact preserved_trans (preserved_append a _)
              (preserved_wireAll _ _ _)
        · rw [if_neg hc4] at h
          by_cases hc5 : c = '+'
          · rw [if_pos hc5] at h
            rcases stack with _ | ⟨f, rest⟩
            · exact Except.noConfusion h
            · injection h with h
              injection h with ha hst
              rw [← ha]
              exact preserved_trans (preserved_append a _)
                (preserved_wireAll _ _ _)
          · rw [if_neg hc5] at h
            injection h with h
            injection h with ha hst
            rw [← ha]
            exact preserved_append a _

theorem foldlM_preserved (toks : List Char) :
    ∀ (a : Arena) (stack : List Fragment) (res : Arena × List Fragment),
    toks.foldlM (fun p c => step p.1 p.2 c) (a, stack) = .ok res →
    preserved a res.1 := by
  induction toks with
  | nil =>
    intro a stack res h
    injection h with h
    rw [← h]
    exact preserved_refl a
  | cons c rest ih =>
    intro a stack res h
    rw [List.foldlM_cons] at h
    cases hstep : step a stack c with
    | error e =>
      rw [hstep] at h
      exact Except.noConfusion h
    | ok p =>
      rw [hstep] at h
      obtain ⟨a1, st1⟩ := p
      exact preserved_trans (step_preserved hstep) (ih a1 st1 res h)

/-! Matcher lemmas.  The closure computed by `auto_expand` holds only
trigger-bearing states; on a heap where every triggered state has exactly
one output (which construction guarantees), `advance` can therefore never
reach its `return True` branch, and `match` can only answer `False`. -/

theorem expandWith_mem {f : Nat → Option (Finset Nat)} {P : Nat → Prop}
    (hf : ∀ t r, f t = some r → ∀ j ∈ r, P j) :
    ∀ (l : List (Option Nat)) (r : Finset Nat),
      expandWith f l = some r → ∀ j ∈ r, P j := by
  intro l
  induction l with
  | nil =>
    intro r h j hj
    injection h with h
    rw [← h] at hj
    simp at hj
  | cons op rest ih =>
    intro r h j hj
    cases op with
    | none => exact ih r h j hj
    | some t =>
      unfold expandWith at h
      cases hft : f t with
      | none => rw [hft] at h; exact Option.noConfusion h
      | some e =>
        rw [hft] at h
        cases hrest : expandWith f rest with
        | none => rw [hrest] at h; exact Option.noConfusion h
        | some r' =>
          rw [hrest] at h
          injection h with h
          rw [← h] at hj
          rcases Finset.mem_union.mp hj with hm | hm
          · exact hf t e hft j hm
          · exact ih r' hrest j hm

theorem autoExpandF_triggered :
    ∀ (fuel : Nat) (a : Arena) (i : Nat) (r : Finset Nat),
      autoExpandF fuel a i = some r →
      ∀ j ∈ r, (getNode a j).trigger ≠ none := by
  intro fuel
  induction fuel with
  | zero =>
    intro a i r h
    exact Option.noConfusion h
  | succ fuel ih =>
    intro a i r h j hj
    unfold autoExpandF at h
    cases htr : (getNode a i).trigger with
    | some c =>
      rw [htr] at h
      injection h with h
      rw [← h] at hj
      rw [Finset.mem_singleton.mp hj, htr]
      exact Option.noConfusion
    | none =>
      rw [htr] at h
      exact expandWith_mem (fun t r' h' j' hj' => ih a t r' h' j' hj')
        (getNode a i).outputs r h j hj

theorem lt_of_trigger_ne_none {a : Arena} {j : Nat}
    (h : (getNode a j).trigger ≠ none) : j < a.length := by
  by_contra hc
  have : a[j]? = none := List.getElem?_eq_none (Nat.le_of_not_lt hc)
  unfold getNode at h
  rw [this] at h
  exact h rfl

/-- On a shape-correct heap `advance` never returns `True`: every state
in a closure has a trigger, and every triggered state has one output. -/
theorem advanceF_not_matched {a : Arena} (hs : shapes a)
    (fuel : Nat) (i : Nat) (char : Option Char) :
    advanceF fuel a i char ≠ some .matched := by
  unfold advanceF
  cases hae : autoExpandF fuel a i with
  | none => exact Option.noConfusion
  | some cur =>
    intro h
    injection h with h
    dsimp only at h
    by_cases hne : (cur.filter (fun j =>
        (getNode a j).trigger = char ∧ (getNode a j).outputs = [])).Nonempty
    · obtain ⟨j, hj⟩ := hne
      obtain ⟨hjc, hjt, hjo⟩ := Finset.mem_filter.mp hj
      have htr := autoExpandF_triggered fuel a i cur hae j hjc
      have hlt := lt_of_trigger_ne_none htr
      have h1 := (hs j hlt).1 htr
      rw [hjo] at h1
      exact absurd h1 (by simp)
    · rw [if_neg hne] at h
      exact AdvRes.noConfusion h

theorem advAll_cases {a : Arena} (hs : shapes a) {fuel : Nat}
    {act : Finset Nat} {char : Option Char} {r : AdvRes}
    (h : advAll fuel a act char = some r) : ∃ ns, r = .states ns := by
  unfold advAll at h
  by_cases hall : ∀ j ∈ act, (advanceF fuel a j char).isSome
  · rw [if_pos hall] at h
    by_cases hex : ∃ j ∈ act, advanceF fuel a j char = some .matched
    · obtain ⟨j, _, hj⟩ := hex
      exact absurd hj (advanceF_not_matched hs fuel j char)
    · rw [if_neg hex] at h
      injection h with h
      exact ⟨_, h.symm⟩
  · rw [if_neg hall] at h
    exact Option.noConfusion h

theorem forLoopF_cont {a : Arena} (hs : shapes a) (fuel : Nat) :
    ∀ (l : List Char) (act : Finset Nat) (r : LoopRes),
      forLoopF fuel a l act = some r → ∃ act', r = .cont act' := by
  intro l
  induction l with
  | nil =>
    intro act r h
    injection h with h
    exact ⟨act, h.symm⟩
  | cons c rest ih =>
    intro act r h
    unfold forLoopF at h
    cases hadv : advAll fuel a act (some c) with
    | none => rw [hadv] at h; exact Option.noConfusion h
    | some ar =>
      rw [hadv] at h
      obtain ⟨ns, rfl⟩ := advAll_cases hs hadv
      have h2 : (if ns = ∅ then some (LoopRes.cont act)
          else forLoopF fuel a rest ns) = some r := h
      by_cases hns : ns = ∅
      · rw [if_pos hns] at h2
        injection h2 with h2
        exact ⟨act, h2.symm⟩
      · rw [if_neg hns] at h2
        exact ih ns r h2

theorem whileLoopF_false {a : Arena} (hs : shapes a) (fuel : Nat) :
    ∀ (wfuel : Nat) (act : Finset Nat) (b : Bool),
      whileLoopF fuel a wfuel act = some b → b = false := by
  intro wfuel
  induction wfuel with
  | zero =>
    intro act b h
    exact Option.noConfusion h
  | succ wfuel ih =>
    intro act b h
    unfold whileLoopF at h
    by_cases hact : act = ∅
    · rw [if_pos hact] at h
      injection h with h
      exact h.symm
    · rw [if_neg hact] at h
      cases hadv : advAll fuel a act none with
      | none => rw [hadv] at h; exact Option.noConfusion h
      | some ar =>
        rw [hadv] at h
        obtain ⟨ns, rfl⟩ := advAll_cases hs hadv
        exact ih ns b h

/-- On a shape-correct heap a terminating `match` always answers `False`. -/
theorem matchF_false {a : Arena} (hs : shapes a) (fuel : Nat) (i : Nat)
    (s : List Char) (b : Bool) (h : matchF fuel a i s = some b) :
    b = false := by
  unfold matchF at h
  cases hfl : forLoopF fuel a s {i} with
  | none => rw [hfl] at h; exact Option.noConfusion h
  | some r =>
    rw [hfl] at h
    obtain ⟨act, rfl⟩ := forLoopF_cont hs fuel s {i} r hfl
    exact whileLoopF_false hs fuel fuel act b h

/-- Every heap produced by a successful construction is shape-correct. -/
theorem shapes_postfix {toks : List Char} {a : Arena} {f : Fragment}
    (h : postfix_to_nfa toks = .ok (a, f)) : shapes a := by
  obtain ⟨a0, hrc, rfl⟩ := postfix_to_nfa_cases h
  have hInv := runConstruct_inv hrc
  exact shapes_wireAll _ _ _ (shapes_append a0 _ hInv.2.1
    ⟨fun hh => absurd rfl hh, fun _ => Or.inl rfl⟩)

/-- An operator token arriving with fewer fragments than it pops makes
`step` fail at the `stack.pop()`. -/
theorem step_underflow {a : Arena} {stack : List Fragment} {c : Char}
    {k : Nat} (har : opArity c = some k) (hlen : stack.length < k) :
    step a stack c = .error .stackUnderflow := by
  unfold opArity at har
  unfold step
  by_cases hc1 : c = '.'
  · rw [if_pos hc1]
    rw [if_pos hc1] at har
    injection har with har
    rw [← har] at hlen
    rcases stack with _ | ⟨f2, _ | ⟨f1, rest⟩⟩
    · rfl
    · rfl
    · simp at hlen
      omega
  · rw [if_neg hc1]
    rw [if_neg hc1] at har
    by_cases hc2 : c = '|'
    · rw [if_pos hc2]
      rw [if_pos hc2] at har
      injection har with har
      rw [← har] at hlen
      rcases stack with _ | ⟨f2, _ | ⟨f1, rest⟩⟩
      · rfl
      · rfl
      · simp at hlen
        omega
    · rw [if_neg hc2]
      rw [if_neg hc2] at har
      by_cases hc3 : c = '?'
      · rw [if_pos hc3]
        rw [if_pos hc3] at har
        injection har with har
        rw [← har] at hlen
        rcases stack with _ | ⟨f, rest⟩
        · rfl
        · simp at hlen
      · rw [if_neg hc3]
        rw [if_neg hc3] at har
        by_cases hc4 : c = '*'
        · rw [if_pos hc4]
          rw [if_pos hc4] at har
          injection har with har
          rw [← har] at hlen
          rcases stack with _ | ⟨f, rest⟩
          · rfl
          · simp at hlen
        · rw [if_neg hc4]
          rw [if_neg hc4] at har
          by_cases hc5 : c = '+'
          · rw [if_pos hc5]
            rw [if_pos hc5] at har
            injection har with har
            rw [← har] at hlen
            rcases stack with _ | ⟨f, rest⟩
            · rfl
            · simp at hlen
          · rw [if_neg hc5] at har
            exact Option.noConfusion har

/-- The underflow aborts the whole token loop. -/
theorem runConstruct_underflow {pre post : List Char} {c : Char} {k : Nat}
    {a : Arena} {stack : List Fragment}
    (har : opArity c = some k)
    (hpre : runConstruct pre = .ok (a, stack))
    (hlen : stack.length < k) :
    runConstruct (pre ++ c :: post) = .error .stackUnderflow := by
  unfold runConstruct at hpre ⊢
  rw [List.foldlM_append, hpre]
  show ((c :: post).foldlM (fun p c => step p.1 p.2 c) (a, stack)) = _
  rw [List.foldlM_cons, step_underflow har hlen]
  rfl

/-- Fully resolved result graph: the root index is real, a match-shaped
state exists, and every existing output slot stores a real state index. -/
theorem resolved_postfix {toks : List Char} {a : Arena} {f : Fragment}
    (h : postfix_to_nfa toks = .ok (a, f)) :
    f.enter < a.length ∧
    (∃ m, m < a.length ∧ (getNode a m).trigger = none ∧
      (getNode a m).outputs = []) ∧
    (∀ i j op, slot? a i j = some op → ∃ t, op = some t ∧ t < a.length) := by
  obtain ⟨a0, hrc, rfl⟩ := postfix_to_nfa_cases h
  obtain ⟨hv, hsh, htv, hdt⟩ := runConstruct_inv hrc
  obtain ⟨hfe, hfo⟩ := htv f (List.mem_singleton.mpr rfl)
  have hlen : (wireAll (a0 ++ [(⟨none, []⟩ : State)]) f.outputs
      a0.length).length = a0.length + 1 := by
    rw [length_wireAll]
    simp
  refine ⟨by rw [hlen]; exact Nat.lt_succ_of_lt hfe, ?_, ?_⟩
  · refine ⟨a0.length, by rw [hlen]; exact Nat.lt_succ_self _, ?_, ?_⟩
    · rw [getNode_wireAll_trigger, getNode_append_self]
    · have hl : (getNode (wireAll (a0 ++ [(⟨none, []⟩ : State)]) f.outputs
          a0.length) a0.length).outputs.length = 0 := by
        rw [getNode_wireAll_outLen, getNode_append_self]
        rfl
      exact List.length_eq_zero.mp hl
  · intro i j op hsl
    have hb := slot?_bounds hsl
    by_cases hmem : (i, j) ∈ f.outputs
    · obtain ⟨h1, h2⟩ := hfo (i, j) hmem
      have hw := not_dangling_of_wired f.outputs (a0 ++ [⟨none, []⟩])
        a0.length hmem (by simp [Nat.lt_succ_of_lt h1])
        (by rw [getNode_append_lt a0 _ h1]; exact h2)
      rw [hsl] at hw
      exact ⟨a0.length, Option.some_inj.mp hw, by
        rw [hlen]; exact Nat.lt_succ_self _⟩
    · have h1 : i < (a0 ++ [(⟨none, []⟩ : State)]).length := by
        have hb1 := hb.1
        rw [length_wireAll] at hb1
        exact hb1
      have h2 : j < (getNode (a0 ++ [(⟨none, []⟩ : State)]) i).outputs.length := by
        have hb2 := hb.2
        rw [getNode_wireAll_outLen] at hb2
        exact hb2
      have hw := slot?_wireAll f.outputs (a0 ++ [⟨none, []⟩]) a0.length
        (i, j) h1 h2
      rw [if_neg hmem, hsl] at hw
      rcases Nat.lt_succ_iff_lt_or_eq.mp (by
        simpa [List.length_append] using h1) with hi | hi
      · rw [slot?_append_lt a0 _ j hi] at hw
        cases op with
        | none =>
          obtain ⟨g, hg, hmemg⟩ := hdt i j hw.symm
          rw [List.mem_singleton.mp hg] at hmemg
          exact absurd hmemg hmem
        | some t =>
          exact ⟨t, rfl, by
            rw [hlen]
            exact Nat.lt_succ_of_lt (hv i j t hw.symm)⟩
      · subst hi
        rw [slot?_append_self a0 _ j] at hw
        simp at hw

/-- The advance loop is independent of the visiting order: it matches iff
some visited state passes with zero outputs, else unions the targets of
the passing states. -/
theorem advLoop_spec (a : Arena) (char : Option Char) :
    ∀ (l : List Nat) (acc : Finset Nat),
    advLoop a char l acc =
      if ∃ j ∈ l, (getNode a j).trigger = char ∧ (getNode a j).outputs = []
      then .matched
      else .states (acc ∪ (l.toFinset.filter
        (fun j => (getNode a j).trigger = char)).biUnion (nextTargets a)) := by
  intro l
  induction l with
  | nil =>
    intro acc
    rw [if_neg (by simp)]
    simp [advLoop]
  | cons j rest ih =>
    intro acc
    unfold advLoop
    by_cases hp : (getNode a j).trigger = char
    · rw [if_pos hp]
      by_cases ho : (getNode a j).outputs = []
      · rw [if_pos ho, if_pos ⟨j, List.mem_cons_self _ _, hp, ho⟩]
      · rw [if_neg ho, ih]
        by_cases hex : ∃ j' ∈ rest,
            (getNode a j').trigger = char ∧ (getNode a j').outputs = []
        · rw [if_pos hex, if_pos (by
            obtain ⟨j', hj', hQ⟩ := hex
            exact ⟨j', List.mem_cons_of_mem _ hj', hQ⟩)]
        · rw [if_neg hex, if_neg (by
            intro hcon
            obtain ⟨j', hj', hQ⟩ := hcon
            rcases List.mem_cons.mp hj' with heq | hmem
            · rw [heq] at hQ
              exact ho hQ.2
            · exact hex ⟨j', hmem, hQ⟩)]
          congr 1
          rw [List.toFinset_cons, Finset.filter_insert, if_pos hp,
            Finset.biUnion_insert, Finset.union_assoc]
    · rw [if_neg hp, ih]
      by_cases hex : ∃ j' ∈ rest,
          (getNode a j').trigger = char ∧ (getNode a j').outputs = []
      · rw [if_pos hex, if_pos (by
          obtain ⟨j', hj', hQ⟩ := hex
          exact ⟨j', List.mem_cons_of_mem _ hj', hQ⟩)]
      · rw [if_neg hex, if_neg (by
          intro hcon
          obtain ⟨j', hj', hQ⟩ := hcon
          rcases List.mem_cons.mp hj' with heq | hmem
          · rw [heq] at hQ
            exact hp hQ.1
          · exact hex ⟨j', hmem, hQ⟩)]
        congr 1
        rw [List.toFinset_cons, Finset.filter_insert, if_neg hp]

/-- Any valid enumeration of the closure gives the order-free `advance`. -/
theorem advanceOrd_eq {ord : Finset Nat → List Nat} (hv : ordValid ord)
    (fuel : Nat) (a : Arena) (i : Nat) (char : Option Char) :
    advanceOrd ord fuel a i char = advanceF fuel a i char := by
  unfold advanceOrd advanceF
  cases hae : autoExpandF fuel a i with
  | none => rfl
  | some cur =>
    show some (advLoop a char (ord cur) ∅) = _
    have hmem : ∀ j, j ∈ ord cur ↔ j ∈ cur := by
      intro j
      rw [← List.mem_toFinset, hv cur]
    rw [advLoop_spec]
    have hiff : (∃ j ∈ ord cur,
        (getNode a j).trigger = char ∧ (getNode a j).outputs = []) ↔
        (cur.filter (fun j =>
          (getNode a j).trigger = char ∧ (getNode a j).outputs = [])).Nonempty := by
      rw [Finset.filter_nonempty_iff]
      exact exists_congr (fun j => and_congr_left' (hmem j))
    rw [if_congr hiff rfl rfl, hv cur, Finset.empty_union]
    rfl

/-- With no state able to report a match (shape-correct heap), `advAll`
reduces to: all advances succeed and their targets are unioned. -/
theorem advAll_states_eq {a : Arena} (hs : shapes a) (fuel : Nat)
    (act : Finset Nat) (char : Option Char) :
    advAll fuel a act char =
      if ∀ j ∈ act, (advanceF fuel a j char).isSome
      then some (.states (act.biUnion (fun j =>
        match advanceF fuel a j char with
        | some (.states s) => s
        | _ => ∅)))
      else none := by
  unfold advAll
  by_cases hall : ∀ j ∈ act, (advanceF fuel a j char).isSome
  · rw [if_pos hall, if_pos hall, if_neg (by
      intro hcon
      obtain ⟨j, _, hj⟩ := hcon
      exact advanceF_not_matched hs fuel j char hj)]
  · rw [if_neg hall, if_neg hall]

/-- The active-state loop is independent of the visiting order. -/
theorem actLoop_spec {a : Arena} (hs : shapes a)
    {ord : Finset Nat → List Nat} (hv : ordValid ord)
    (fuel : Nat) (char : Option Char) :
    ∀ (l : List Nat) (acc : Finset Nat),
    actLoop fuel a char ord l acc =
      if ∀ j ∈ l, (advanceF fuel a j char).isSome
      then some (.states (acc ∪ l.toFinset.biUnion (fun j =>
        match advanceF fuel a j char with
        | some (.states s) => s
        | _ => ∅)))
      else none := by
  intro l
  induction l with
  | nil =>
    intro acc
    rw [if_pos (by simp)]
    simp [actLoop]
  | cons j rest ih =>
    intro acc
    unfold actLoop
    rw [advanceOrd_eq hv]
    cases hadv : advanceF fuel a j char with
    | none =>
      rw [if_neg (by
        intro hcon
        have := hcon j (List.mem_cons_self _ _)
        rw [hadv] at this
        simp at this)]
      rfl
    | some ar =>
      cases ar with
      | matched => exact absurd hadv (advanceF_not_matched hs fuel j char)
      | states s =>
        have hred : (do
            match ← some (AdvRes.states s) with
            | .matched => some AdvRes.matched
            | .states s => actLoop fuel a char ord rest (acc ∪ s)) =
            actLoop fuel a char ord rest (acc ∪ s) := rfl
        rw [hred, ih]
        by_cases hall : ∀ j' ∈ rest, (advanceF fuel a j' char).isSome
        · rw [if_pos hall, if_pos (by
            intro j' hj'
            rcases List.mem_cons.mp hj' with heq | hmem
            · rw [heq, hadv]
              rfl
            · exact hall j' hmem)]
          congr 1
          rw [List.toFinset_cons, Finset.biUnion_insert]
          have hj : (match advanceF fuel a j char with
              | some (.states s) => s
              | _ => ∅) = s := by
            rw [hadv]
          rw [hj, Finset.union_assoc]
        · rw [if_neg hall, if_neg (by
            intro hcon
            exact hall (fun j' hj' => hcon j' (List.mem_cons_of_mem _ hj')))]

/-- The character loop agrees with its order-free form. -/
theorem forLoopOrd_eq {a : Arena} (hs : shapes a)
    {ord : Finset Nat → List Nat} (hv : ordValid ord) (fuel : Nat) :
    ∀ (l : List Char) (act : Finset Nat),
    forLoopOrd ord fuel a l act = forLoopF fuel a l act := by
  intro l
  induction l with
  | nil =>
    intro act
    rfl
  | cons c rest ih =>
    intro act
    unfold forLoopOrd forLoopF
    have hmem : ∀ j, j ∈ ord act ↔ j ∈ act := by
      intro j
      rw [← List.mem_toFinset, hv act]
    have hact : actLoop fuel a (some c) ord (ord act) ∅ =
        advAll fuel a act (some c) := by
      rw [actLoop_spec hs hv, advAll_states_eq hs,
        if_congr (forall_congr' (fun j => imp_congr (hmem j) Iff.rfl)) rfl rfl,
        hv act, Finset.empty_union]
    rw [hact]
    cases advAll fuel a act (some c) with
    | none => rfl
    | some ar =>
      cases ar with
      | matched => rfl
      | states ns =>
        show (if ns = ∅ then some (LoopRes.cont act)
            else forLoopOrd ord fuel a rest ns) =
          (if ns = ∅ then some (LoopRes.cont act) else forLoopF fuel a rest ns)
        by_cases hns : ns = ∅
        · rw [if_pos hns, if_pos hns]
        · rw [if_neg hns, if_neg hns, ih]

/-- The trailing while loop agrees with its order-free form. -/
theorem whileLoopOrd_eq {a : Arena} (hs : shapes a)
    {ord : Finset Nat → List Nat} (hv : ordValid ord) (fuel : Nat) :
    ∀ (wfuel : Nat) (act : Finset Nat),
    whileLoopOrd ord fuel a wfuel act = whileLoopF fuel a wfuel act := by
  intro wfuel
  induction wfuel with
  | zero =>
    intro act
    rfl
  | succ wfuel ih =>
    intro act
    unfold whileLoopOrd whileLoopF
    by_cases hact : act = ∅
    · rw [if_pos hact, if_pos hact]
    · rw [if_neg hact, if_neg hact]
      have hmem : ∀ j, j ∈ ord act ↔ j ∈ act := by
        intro j
        rw [← List.mem_toFinset, hv act]
      have hactl : actLoop fuel a none ord (ord act) ∅ =
          advAll fuel a act none := by
        rw [actLoop_spec hs hv, advAll_states_eq hs,
          if_congr (forall_congr' (fun j => imp_congr (hmem j) Iff.rfl)) rfl rfl,
          hv act, Finset.empty_union]
      rw [hactl]
      cases advAll fuel a act none with
      | none => rfl
      | some ar =>
        cases ar with
        | matched => rfl
        | states ns =>
          show whileLoopOrd ord fuel a wfuel ns = whileLoopF fuel a wfuel ns
          exact ih ns

/-- `match` run with any valid set enumeration agrees with the order-free
embedding: the boolean decision does not depend on Python's set iteration
order. -/
theorem matchOrd_eq {a : Arena} (hs : shapes a)
    {ord : Finset Nat → List Nat} (hv : ordValid ord) (fuel : Nat)
    (i : Nat) (s : List Char) :
    matchOrd ord fuel a i s = matchF fuel a i s := by
  unfold matchOrd matchF
  rw [forLoopOrd_eq hs hv]
  cases forLoopF fuel a s {i} with
  | none => rfl
  | some r =>
    cases r with
    | found => rfl
    | cont act =>
      show whileLoopOrd ord fuel a fuel act = whileLoopF fuel a fuel act
      exact whileLoopOrd_eq hs hv fuel fuel act

theorem posArity_append {a : Arena} {n : State} (hp : posArity a)
    (hn : n.outputs.length ≠ 0) : posArity (a ++ [n]) := by
  intro i hi
  rcases Nat.lt_succ_iff_lt_or_eq.mp (by
    simpa [List.length_append] using hi) with h | h
  · rw [getNode_append_lt a n h]
    exact hp i h
  · subst h
    rw [getNode_append_self a n]
    exact hn

theorem posArity_wireAll {a : Arena} (ops : List (Nat × Nat)) (t : Nat)
    (hp : posArity a) : posArity (wireAll a ops t) := by
  intro i hi
  rw [length_wireAll] at hi
  rw [getNode_wireAll_outLen]
  exact hp i hi

theorem posArity_step {a : Arena} {stack : List Fragment} {c : Char}
    {a' : Arena} {st' : List Fragment}
    (hp : posArity a) (h : step a stack c = .ok (a', st')) : posArity a' := by
  unfold step at h
  by_cases hc1 : c = '.'
  · rw [if_pos hc1] at h
    rcases stack with _ | ⟨f2, _ | ⟨f1, rest⟩⟩
    · exact Except.noConfusion h
    · exact Except.noConfusion h
    · injection h with h
      injection h with ha hst
      rw [← ha]
      exact posArity_wireAll _ _ hp
  · rw [if_neg hc1] at h
    by_cases hc2 : c = '|'
    · rw [if_pos hc2] at h
      rcases stack with _ | ⟨f2, _ | ⟨f1, rest⟩⟩
      · exact Except.noConfusion h
      · exact Except.noConfusion h
      · injection h with h
        injection h with ha hst
        rw [← ha]
        exact posArity_append hp (by simp)
    · rw [if_neg hc2] at h
      by_cases hc3 : c = '?'
      · rw [if_pos hc3] at h
        rcases stack with _ | ⟨f, rest⟩
        · exact Except.noConfusion h
        · injection h with h
          injection h with ha hst
          rw [← ha]
          exact posArity_append hp (by simp)
      · rw [if_neg hc3] at h
        by_cases hc4 : c = '*'
        · rw [if_pos hc4] at h
          rcases stack with _ | ⟨f, rest⟩
          · exact Except.noConfusion h
          · injection h with h
            injection h with ha hst
            rw [← ha]
            exact posArity_wireAll _ _ (posArity_append hp (by simp))
        · rw [if_neg hc4] at h
          by_cases hc5 : c = '+'
          · rw [if_pos hc5] at h
            rcases stack with _ | ⟨f, rest⟩
            · exact Except.noConfusion h
            · injection h with h
              injection h with ha hst
              rw [← ha]
              exact posArity_wireAll _ _ (posArity_append hp (by simp))
          · rw [if_neg hc5] at h
            injection h with h
            injection h with ha hst
            rw [← ha]
            exact posArity_append hp (by simp)

theorem foldlM_posArity (toks : List Char) :
    ∀ (a : Arena) (stack : List Fragment) (res : Arena × List Fragment),
    posArity a →
    toks.foldlM (fun p c => step p.1 p.2 c) (a, stack) = .ok res →
    posArity res.1 := by
  induction toks with
  | nil =>
    intro a stack res hp h
    injection h with h
    rw [← h]
    exact hp
  | cons c rest ih =>
    intro a stack res hp h
    rw [List.foldlM_cons] at h
    cases hstep : step a stack c with
    | error e =>
      rw [hstep] at h
      exact Except.noConfusion h
    | ok p =>
      rw [hstep] at h
      obtain ⟨a1, st1⟩ := p
      exact ih a1 st1 res (posArity_step hp hstep) h

theorem runConstruct_posArity {toks : List Char} {a : Arena}
    {stack : List Fragment} (h : runConstruct toks = .ok (a, stack)) :
    posArity a :=
  foldlM_posArity toks [] [] (a, stack) (fun i hi => absurd hi (by simp)) h

/-- The zero-output state of a result heap is unique: it is the match
state appended by the final stage. -/
theorem match_state_unique {toks : List Char} {a : Arena} {f : Fragment}
    (h : postfix_to_nfa toks = .ok (a, f)) :
    ∀ m1 m2, m1 < a.length → m2 < a.length →
      (getNode a m1).outputs = [] → (getNode a m2).outputs = [] →
      m1 = m2 := by
  obtain ⟨a0, hrc, rfl⟩ := postfix_to_nfa_cases h
  have hp := runConstruct_posArity hrc
  have key : ∀ m, m < (wireAll (a0 ++ [(⟨none, []⟩ : State)]) f.outputs
      a0.length).length →
      (getNode (wireAll (a0 ++ [(⟨none, []⟩ : State)]) f.outputs
        a0.length) m).outputs = [] → m = a0.length := by
    intro m hm ho
    have hlen : m < a0.length + 1 := by
      rw [length_wireAll] at hm
      simpa [List.length_append] using hm
    rcases Nat.lt_succ_iff_lt_or_eq.mp hlen with hlt | heq
    · exfalso
      apply hp m hlt
      have := getNode_wireAll_outLen f.outputs (a0 ++ [(⟨none, []⟩ : State)])
        a0.length m
      rw [ho] at this
      rw [getNode_append_lt a0 _ hlt] at this
      exact this.symm
    · exact heq
  intro m1 m2 h1 h2 ho1 ho2
  rw [key m1 h1 ho1, key m2 h2 ho2]

/-! The ten claims. -/

/-- Claim C1 (code bug): the spec and the repository's own test
`test_literal` require the automaton built from the one-token postfix
"a" to accept the string "a", but the code rejects it: `auto_expand`
returns the empty set for the trigger-less terminal Match state, so the
match loop drains to the empty active set and returns `False`. -/
theorem C1_literal_rejected :
    postfix_to_nfa ['a'] =
      .ok ([⟨some 'a', [some 1]⟩, ⟨none, []⟩], ⟨0, [(0, 0)]⟩) ∧
    matchF 10 [⟨some 'a', [some 1]⟩, ⟨none, []⟩] 0 ['a'] = some false ∧
    matchF 10 [⟨some 'a', [some 1]⟩, ⟨none, []⟩] 0 [] = some false ∧
    matchF 10 [⟨some 'a', [some 1]⟩, ⟨none, []⟩] 0 ['b'] = some false := by
  refine ⟨by decide, by decide, by decide, by decide⟩

/-- Claim C2 (confirmed): for every automaton the constructor returns,
`advance` never signals acceptance (every state in a closure carries a
trigger, and every triggered state the constructor creates has exactly
one output, never zero), so any terminating `match` run returns False. -/
theorem C2_match_always_false {toks : List Char} {a : Arena} {f : Fragment}
    (h : postfix_to_nfa toks = .ok (a, f)) :
    (∀ fuel i char, advanceF fuel a i char ≠ some .matched) ∧
    (∀ fuel s b, matchF fuel a f.enter s = some b → b = false) := by
  have hs := shapes_postfix h
  exact ⟨fun fuel i char => advanceF_not_matched hs fuel i char,
    fun fuel s b hb => matchF_false hs fuel f.enter s b hb⟩

theorem C2_match_always_false_witness :
    postfix_to_nfa ['a'] =
      .ok ([⟨some 'a', [some 1]⟩, ⟨none, []⟩], ⟨0, [(0, 0)]⟩) ∧
    matchF 10 [⟨some 'a', [some 1]⟩, ⟨none, []⟩] 0 ['a'] = some false ∧
    false = false :=
  have h : postfix_to_nfa ['a'] =
      .ok ([⟨some 'a', [some 1]⟩, ⟨none, []⟩], ⟨0, [(0, 0)]⟩) := by decide
  ⟨h, by decide, (C2_match_always_false h).2 10 ['a'] false (by decide)⟩

/-- On the "a**" heap `auto_expand` of either control state exhausts every
recursion depth: the source has no visited set, so the 1 → 2 → 1 epsilon
cycle recurses forever (Python raises RecursionError). -/
theorem autoExpand_arenaStar2_none (fuel : Nat) :
    autoExpandF fuel arenaStar2 1 = none ∧
    autoExpandF fuel arenaStar2 2 = none := by
  induction fuel with
  | zero => exact ⟨rfl, rfl⟩
  | succ fuel ih =>
    constructor
    · show expandWith (fun t => autoExpandF fuel arenaStar2 t)
        [some 0, some 2] = none
      simp only [expandWith]
      rw [ih.2]
      cases h0 : autoExpandF fuel arenaStar2 0 <;> rfl
    · show expandWith (fun t => autoExpandF fuel arenaStar2 t)
        [some 1, some 3] = none
      simp only [expandWith]
      rw [ih.1]
      rfl

/-- Claim C3 (code bug): the spec says matching is total and never
errors, including on nested quantifiers such as "a**"; but on the
automaton built from "a**" the matcher exhausts every finite recursion
depth even on the empty input (Python: RecursionError in `auto_expand`),
because the epsilon edges of the two star control states form a cycle
and `auto_expand` has no cycle detection. -/
theorem C3_match_diverges_on_nested_star :
    postfix_to_nfa ['a', '*', '*'] = .ok (arenaStar2, ⟨2, [(2, 1)]⟩) ∧
    (∀ fuel, autoExpandF fuel arenaStar2 2 = none) ∧
    (∀ fuel, matchF fuel arenaStar2 2 [] = none) := by
  refine ⟨by decide, fun fuel => (autoExpand_arenaStar2_none fuel).2, ?_⟩
  intro fuel
  show whileLoopF fuel arenaStar2 fuel {2} = none
  cases fuel with
  | zero => rfl
  | succ k =>
    unfold whileLoopF
    rw [if_neg (by decide : ¬({2} : Finset Nat) = ∅)]
    have hcond : ¬ ∀ j ∈ ({2} : Finset Nat),
        (advanceF (k + 1) arenaStar2 j none).isSome := by
      intro hcon
      have h2 := hcon 2 (Finset.mem_singleton_self 2)
      unfold advanceF at h2
      rw [(autoExpand_arenaStar2_none (k + 1)).2] at h2
      simp at h2
    have hadv : advAll (k + 1) arenaStar2 {2} none = none := by
      unfold advAll
      rw [if_neg hcond]
    rw [hadv]
    rfl

/-- Claim C4 (code bug): the spec says `auto_expand` collects the
reachable trigger-bearing states together with the terminal Match state;
the code drops the Match state.  On the "a?" automaton the closure of
the root control state 1 is `{0}` although the Match state 2 is directly
reachable from it by an epsilon edge, and the closure of the Match state
itself is empty rather than its singleton. -/
theorem C4_auto_expand_drops_match :
    postfix_to_nfa ['a', '?'] = .ok (arenaOpt, ⟨1, [(0, 0), (1, 1)]⟩) ∧
    (getNode arenaOpt 2).trigger = none ∧
    (getNode arenaOpt 2).outputs = [] ∧
    slot? arenaOpt 1 1 = some (some 2) ∧
    autoExpandF 5 arenaOpt 1 = some {0} ∧
    autoExpandF 5 arenaOpt 2 = some ∅ := by
  refine ⟨by decide, by decide, by decide, by decide, by decide, by decide⟩

/-- Claim C5 (confirmed): when the token loop leaves exactly one fragment,
`postfix_to_nfa` appends one fresh terminal Match state (no trigger, no
outputs, at an index that did not exist before), wires every tracked
output of the surviving fragment to it — and by the stack invariant the
tracked outputs cover every dangling slot of the heap — and returns the
surviving fragment, whose unchanged `enter` field is the automaton root. -/
theorem C5_final_wiring {toks : List Char} {a0 : Arena} {f : Fragment}
    (hrc : runConstruct toks = .ok (a0, [f])) :
    postfix_to_nfa toks =
      .ok (wireAll (a0 ++ [⟨none, []⟩]) f.outputs a0.length, f) ∧
    a0[a0.length]? = none ∧
    (getNode (wireAll (a0 ++ [⟨none, []⟩]) f.outputs a0.length)
      a0.length).trigger = none ∧
    (getNode (wireAll (a0 ++ [⟨none, []⟩]) f.outputs a0.length)
      a0.length).outputs = [] ∧
    (∀ p ∈ f.outputs, slot? (wireAll (a0 ++ [⟨none, []⟩]) f.outputs
      a0.length) p.1 p.2 = some (some a0.length)) ∧
    (∀ i j, slot? a0 i j = some none → (i, j) ∈ f.outputs) := by
  obtain ⟨hv, hsh, htv, hdt⟩ := runConstruct_inv hrc
  obtain ⟨hfe, hfo⟩ := htv f (List.mem_singleton.mpr rfl)
  refine ⟨?_, ?_, ?_, ?_, ?_, ?_⟩
  · unfold postfix_to_nfa
    rw [hrc]
    rfl
  · exact List.getElem?_eq_none (Nat.le_refl _)
  · rw [getNode_wireAll_trigger, getNode_append_self]
  · have hl : (getNode (wireAll (a0 ++ [(⟨none, []⟩ : State)]) f.outputs
        a0.length) a0.length).outputs.length = 0 := by
      rw [getNode_wireAll_outLen, getNode_append_self]
      rfl
    exact List.length_eq_zero.mp hl
  · intro p hp
    obtain ⟨h1, h2⟩ := hfo p hp
    exact not_dangling_of_wired f.outputs (a0 ++ [⟨none, []⟩]) a0.length hp
      (by simp [Nat.lt_succ_of_lt h1])
      (by rw [getNode_append_lt a0 _ h1]; exact h2)
  · intro i j hd
    obtain ⟨g, hg, hmem⟩ := hdt i j hd
    rw [List.mem_singleton.mp hg] at hmem
    exact hmem

theorem C5_final_wiring_witness :
    runConstruct ['a'] = .ok ([⟨some 'a', [none]⟩], [⟨0, [(0, 0)]⟩]) ∧
    postfix_to_nfa ['a'] =
      .ok (wireAll ([⟨some 'a', [none]⟩] ++ [⟨none, []⟩]) [(0, 0)] 1,
        ⟨0, [(0, 0)]⟩) :=
  have h : runConstruct ['a'] = .ok ([⟨some 'a', [none]⟩], [⟨0, [(0, 0)]⟩]) := by
    decide
  ⟨h, (C5_final_wiring h).1⟩

/-- Claim C6 (confirmed): whenever an operator token is processed while
the stack holds fewer fragments than the operator pops, construction
fails with the stack-underflow error (the `IndexError` of the bare
`stack.pop()` in the source), an error distinct from the other two
construction failures, and no automaton is returned. -/
theorem C6_operator_underflow {pre post : List Char} {c : Char} {k : Nat}
    {a : Arena} {stack : List Fragment}
    (har : opArity c = some k)
    (hpre : runConstruct pre = .ok (a, stack))
    (hlen : stack.length < k) :
    postfix_to_nfa (pre ++ c :: post) = .error .stackUnderflow ∧
    Err.stackUnderflow ≠ Err.emptyExpression ∧
    Err.stackUnderflow ≠ Err.multipleFragments := by
  refine ⟨?_, by decide, by decide⟩
  unfold postfix_to_nfa
  rw [runConstruct_underflow har hpre hlen]
  rfl

theorem C6_operator_underflow_witness :
    opArity '.' = some 2 ∧
    runConstruct ([] : List Char) = .ok ([], []) ∧
    ([] : List Fragment).length < 2 ∧
    postfix_to_nfa ['.'] = .error .stackUnderflow :=
  have h1 : opArity '.' = some 2 := by decide
  have h2 : runConstruct ([] : List Char) = .ok ([], []) := by decide
  have h3 : ([] : List Fragment).length < 2 := by decide
  ⟨h1, h2, h3, (C6_operator_underflow h1 h2 h3).1⟩

/-- Claim C7 (confirmed): the empty token sequence fails with the
empty-expression error and the operator-less two-literal sequence "ab"
fails with the malformed-expression (multiple fragments) error; both are
errors, so no automaton is returned. -/
theorem C7_empty_and_malformed :
    postfix_to_nfa [] = .error .emptyExpression ∧
    postfix_to_nfa ['a', 'b'] = .error .multipleFragments := by
  refine ⟨by decide, by decide⟩

/-- Claim C8 (confirmed): on every success the graph is fully resolved:
the root is a real state, a terminal match-shaped state (no trigger, no
outputs) exists and is the unique zero-output state, and every output
slot of every state stores a real state index — no slot is dangling. -/
theorem C8_fully_resolved {toks : List Char} {a : Arena} {f : Fragment}
    (h : postfix_to_nfa toks = .ok (a, f)) :
    f.enter < a.length ∧
    (∃ m, m < a.length ∧ (getNode a m).trigger = none ∧
      (getNode a m).outputs = []) ∧
    (∀ m1 m2, m1 < a.length → m2 < a.length →
      (getNode a m1).outputs = [] → (getNode a m2).outputs = [] →
      m1 = m2) ∧
    (∀ i j op, slot? a i j = some op → ∃ t, op = some t ∧ t < a.length) := by
  obtain ⟨h1, h2, h3⟩ := resolved_postfix h
  exact ⟨h1, h2, match_state_unique h, h3⟩

theorem C8_fully_resolved_witness :
    postfix_to_nfa ['a'] = .ok (arenaLit, fragLit) ∧
    (fragLit.enter < arenaLit.length ∧
     (∃ m, m < arenaLit.length ∧ (getNode arenaLit m).trigger = none ∧
       (getNode arenaLit m).outputs = []) ∧
     (∀ m1 m2, m1 < arenaLit.length → m2 < arenaLit.length →
       (getNode arenaLit m1).outputs = [] →
       (getNode arenaLit m2).outputs = [] → m1 = m2) ∧
     (∀ i j op, slot? arenaLit i j = some op →
       ∃ t, op = some t ∧ t < arenaLit.length)) :=
  have h : postfix_to_nfa ['a'] = .ok (arenaLit, fragLit) := by decide
  ⟨h, C8_fully_resolved h⟩

/-- Claim C9 (confirmed): rebinding an output slot (`Output.set`) keeps
the heap's size, every state's trigger and every state's output arity,
and changes no slot but the one addressed; one constructor step, and a
whole successful construction, keep the trigger and output arity of
every already-existing state. -/
theorem C9_output_arity_fixed :
    (∀ (a : Arena) (p : Nat × Nat) (t : Option Nat),
      (setSlot a p t).length = a.length ∧
      (∀ i, (getNode (setSlot a p t) i).trigger = (getNode a i).trigger ∧
        (getNode (setSlot a p t) i).outputs.length =
          (getNode a i).outputs.length) ∧
      (∀ q : Nat × Nat, q ≠ p →
        slot? (setSlot a p t) q.1 q.2 = slot? a q.1 q.2)) ∧
    (∀ (a : Arena) (stack : List Fragment) (c : Char) (a' : Arena)
      (st' : List Fragment), step a stack c = .ok (a', st') →
      preserved a a') ∧
    (∀ (toks : List Char) (a0 : Arena) (stack : List Fragment) (a : Arena)
      (f : Fragment), runConstruct toks = .ok (a0, stack) →
      postfix_to_nfa toks = .ok (a, f) → preserved a0 a) := by
  refine ⟨?_, ?_, ?_⟩
  · intro a p t
    exact ⟨length_setSlot a p t,
      fun i => ⟨getNode_setSlot_trigger a p t i, getNode_setSlot_outLen a p t i⟩,
      fun q hq => slot?_setSlot_ne a p t hq⟩
  · intro a stack c a' st' h
    exact step_preserved h
  · intro toks a0 stack a f hrc h
    obtain ⟨a0', hrc', heq⟩ := postfix_to_nfa_cases h
    rw [hrc] at hrc'
    injection hrc' with hrc'
    injection hrc' with ha hst
    rw [heq, ← ha]
    exact preserved_trans (preserved_append a0 _) (preserved_wireAll _ _ _)

theorem C9_output_arity_fixed_witness :
    (setSlot arenaLit (0, 0) (some 0)).length = arenaLit.length ∧
    preserved [⟨some 'a', [none]⟩] arenaLit :=
  ⟨(C9_output_arity_fixed.1 arenaLit (0, 0) (some 0)).1,
   C9_output_arity_fixed.2.2 ['a'] [⟨some 'a', [none]⟩] [⟨0, [(0, 0)]⟩]
     arenaLit fragLit (by decide) (by decide)⟩

/-- Claim C10 (confirmed): the matcher reads the automaton but never
writes it (the embedding of `match`/`advance`/`auto_expand` contains no
`Output.set`), and its boolean result does not depend on the order in
which Python happens to iterate the active and closure sets: any two
valid set enumerations give the same result, equal to the order-free
embedding, so two `match` calls on the same automaton and input agree. -/
theorem C10_match_deterministic {toks : List Char} {a : Arena}
    {f : Fragment} (h : postfix_to_nfa toks = .ok (a, f))
    {ord1 ord2 : Finset Nat → List Nat}
    (h1 : ordValid ord1) (h2 : ordValid ord2)
    (fuel i : Nat) (s : List Char) :
    matchOrd ord1 fuel a i s = matchOrd ord2 fuel a i s ∧
    matchOrd ord1 fuel a i s = matchF fuel a i s := by
  have hs := shapes_postfix h
  exact ⟨(matchOrd_eq hs h1 fuel i s).trans (matchOrd_eq hs h2 fuel i s).symm,
    matchOrd_eq hs h1 fuel i s⟩

theorem sortOrd_valid : ordValid sortOrd := fun s => Finset.sort_toFinset _ s

theorem C10_match_deterministic_witness :
    postfix_to_nfa ['a'] = .ok (arenaLit, fragLit) ∧
    ordValid sortOrd ∧
    (matchOrd sortOrd 10 arenaLit 0 ['a'] =
       matchOrd sortOrd 10 arenaLit 0 ['a'] ∧
     matchOrd sortOrd 10 arenaLit 0 ['a'] = matchF 10 arenaLit 0 ['a']) :=
  have h : postfix_to_nfa ['a'] = .ok (arenaLit, fragLit) := by decide
  ⟨h, sortOrd_valid,
    C10_match_deterministic h sortOrd_valid sortOrd_valid 10 0 ['a']⟩

end KtRegex
